import Mathlib

/-!
# Verification of the second-hand bot data layer

Shallow embedding of the bot's data layer (admin record store, session
store serialization, media storage path handling) together with proofs of
the specified properties.  Python integers are modelled as `Int`, strings
as `String`, Valkey hashes and sets as association lists, and `pathlib`
paths as component lists.
-/

/-! ## Model of Python decimal integer formatting and parsing

`str(n)` for `int` values and `int(s)` parsing are modelled explicitly so
that their round-trip behaviour is provable.
-/

/-- Decimal digit character for a digit value below ten. -/
def digitCh : Nat → Char
  | 0 => '0' | 1 => '1' | 2 => '2' | 3 => '3' | 4 => '4'
  | 5 => '5' | 6 => '6' | 7 => '7' | 8 => '8' | _ => '9'

/-- Little-endian decimal digits, with an explicit fuel bound so the
definition is structurally recursive (and kernel-computable); the fuel is
never exhausted when it bounds the value. -/
def natDigitsRevAux : Nat → Nat → List Char
  | 0, n => [digitCh n]
  | fuel + 1, n =>
    if n < 10 then [digitCh n] else digitCh (n % 10) :: natDigitsRevAux fuel (n / 10)

/-- Little-endian decimal digits of a natural number. -/
def natDigitsRev (n : Nat) : List Char :=
  natDigitsRevAux n n

theorem natDigitsRevAux_fuel :
    ∀ f f2 n : Nat, n ≤ f → n ≤ f2 → natDigitsRevAux f n = natDigitsRevAux f2 n := by
  intro f
  induction f with
  | zero =>
    intro f2 n h1 h2
    obtain rfl : n = 0 := Nat.le_zero.mp h1
    cases f2 with
    | zero => rfl
    | succ f3 => simp [natDigitsRevAux]
  | succ f ih =>
    intro f2 n h1 h2
    cases f2 with
    | zero =>
      obtain rfl : n = 0 := Nat.le_zero.mp h2
      simp [natDigitsRevAux]
    | succ f3 =>
      simp only [natDigitsRevAux]
      by_cases hn : n < 10
      · simp [hn]
      · simp only [hn, if_false]
        have hlt : n / 10 < n := Nat.div_lt_self (by omega) (by omega)
        have hdiv : n / 10 ≤ f := by omega
        have hdiv2 : n / 10 ≤ f3 := by omega
        rw [ih f3 (n / 10) hdiv hdiv2]

/-- The recurrence the digits function satisfies. -/
theorem natDigitsRev_eq (n : Nat) :
    natDigitsRev n = if n < 10 then [digitCh n] else digitCh (n % 10) :: natDigitsRev (n / 10) := by
  by_cases hn : n < 10
  · unfold natDigitsRev
    cases n with
    | zero => simp [natDigitsRevAux, hn]
    | succ m => simp [natDigitsRevAux, hn]
  · unfold natDigitsRev
    cases n with
    | zero => omega
    | succ m =>
      simp only [natDigitsRevAux, hn, if_false]
      have hlt : (m + 1) / 10 < m + 1 := Nat.div_lt_self (by omega) (by omega)
      rw [natDigitsRevAux_fuel m ((m + 1) / 10) ((m + 1) / 10) (by omega) le_rfl]

/-- Model of Python `str` on a non-negative integer. -/
def pyNatRepr (n : Nat) : String :=
  String.mk (natDigitsRev n).reverse

/-- Model of Python `str` on an `int` value. -/
def pyIntStr : Int → String
  | .ofNat n => pyNatRepr n
  | .negSucc m => String.mk ('-' :: (natDigitsRev (m + 1)).reverse)

/-- Digit value of a character, `none` for non-digits. -/
def digitVal? (c : Char) : Option Nat :=
  if c = '0' then some 0 else if c = '1' then some 1 else if c = '2' then some 2
  else if c = '3' then some 3 else if c = '4' then some 4 else if c = '5' then some 5
  else if c = '6' then some 6 else if c = '7' then some 7 else if c = '8' then some 8
  else if c = '9' then some 9 else none

/-- Accumulating decimal parser over a character list; fails on any non-digit. -/
def parseNatAux : List Char → Nat → Option Nat
  | [], acc => some acc
  | c :: t, acc =>
    match digitVal? c with
    | none => none
    | some d => parseNatAux t (10 * acc + d)

/-- Model of Python `int(s)` on the inputs the bot produces: an optional
leading minus sign followed by decimal digits.  (`int()` additionally
accepts surrounding whitespace, a plus sign and underscores; those forms
never arise from `str(int)` output and are immaterial here.) -/
def pyInt (s : String) : Option Int :=
  match s.toList with
  | [] => none
  | c :: t =>
    if c = '-' then
      if t = [] then none else (parseNatAux t 0).map (fun n => -(n : Int))
    else (parseNatAux (c :: t) 0).map (fun n => (n : Int))

theorem digitVal?_digitCh {d : Nat} (h : d < 10) : digitVal? (digitCh d) = some d := by
  interval_cases d <;> rfl

theorem digitCh_ne_dash {d : Nat} (h : d < 10) : digitCh d ≠ '-' := by
  interval_cases d <;> decide

theorem natDigitsRev_ne_nil (n : Nat) : natDigitsRev n ≠ [] := by
  rw [natDigitsRev_eq]
  split <;> simp

theorem natDigitsRev_mem (n : Nat) : ∀ c ∈ natDigitsRev n, ∃ d, d < 10 ∧ c = digitCh d := by
  induction n using Nat.strong_induction_on with
  | _ n ih =>
    rw [natDigitsRev_eq]
    split
    · intro c hc
      simp only [List.mem_singleton] at hc
      exact ⟨n, by omega, hc⟩
    · intro c hc
      rcases List.mem_cons.mp hc with h | h
      · exact ⟨n % 10, Nat.mod_lt _ (by omega), h⟩
      · exact ih (n / 10) (Nat.div_lt_self (by omega) (by omega)) c h

theorem parseNatAux_append (xs ys : List Char) (acc : Nat) :
    parseNatAux (xs ++ ys) acc =
      match parseNatAux xs acc with
      | none => none
      | some a => parseNatAux ys a := by
  induction xs generalizing acc with
  | nil => simp [parseNatAux]
  | cons c t ih =>
    simp only [List.cons_append, parseNatAux]
    cases digitVal? c with
    | none => simp
    | some d => simp [ih]

theorem parseNatAux_digits (n : Nat) :
    parseNatAux (natDigitsRev n).reverse 0 = some n := by
  induction n using Nat.strong_induction_on with
  | _ n ih =>
    rw [natDigitsRev_eq]
    split
    · next h =>
      simp [parseNatAux, digitVal?_digitCh h]
    · next h =>
      rw [List.reverse_cons, parseNatAux_append, ih (n / 10) (Nat.div_lt_self (by omega) (by omega))]
      simp [parseNatAux, digitVal?_digitCh (Nat.mod_lt n (by omega))]
      omega

/-- Parsing inverts formatting on every `int` value. -/
theorem pyInt_pyIntStr (i : Int) : pyInt (pyIntStr i) = some i := by
  cases i with
  | ofNat n =>
    obtain ⟨c, t, hrev⟩ : ∃ c t, (natDigitsRev n).reverse = c :: t := by
      cases h : (natDigitsRev n).reverse with
      | nil => exact absurd (List.reverse_eq_nil_iff.mp h) (natDigitsRev_ne_nil n)
      | cons c t => exact ⟨c, t, rfl⟩
    have hc : c ∈ natDigitsRev n := List.mem_reverse.mp (hrev ▸ List.mem_cons_self _ _)
    obtain ⟨d, hd, rfl⟩ := natDigitsRev_mem n c hc
    have hlist : (pyIntStr (Int.ofNat n)).toList = digitCh d :: t := hrev
    have hparse : parseNatAux (digitCh d :: t) 0 = some n := by
      rw [← hrev]; exact parseNatAux_digits n
    unfold pyInt
    rw [hlist]
    simp [digitCh_ne_dash hd, hparse]
  | negSucc m =>
    have hlist : (pyIntStr (Int.negSucc m)).toList = '-' :: (natDigitsRev (m + 1)).reverse := rfl
    unfold pyInt
    rw [hlist]
    simp only [if_pos rfl, List.reverse_eq_nil_iff, parseNatAux_digits (m + 1)]
    rw [if_neg (natDigitsRev_ne_nil (m + 1))]
    simp [Int.negSucc_eq, parseNatAux_digits (m + 1)]

/-- `str` is injective on `int` values. -/
theorem pyIntStr_inj {a b : Int} (h : pyIntStr a = pyIntStr b) : a = b := by
  have ha := pyInt_pyIntStr a
  rw [h, pyInt_pyIntStr b] at ha
  exact (Option.some.injEq _ _).mp ha.symm

/-- `str(int)` output is never the empty string. -/
theorem pyIntStr_ne_empty (i : Int) : pyIntStr i ≠ "" := by
  cases i with
  | ofNat n =>
    intro h
    have : (pyIntStr (Int.ofNat n)).toList = [] := by rw [h]; rfl
    simp only [pyIntStr, pyNatRepr, String.toList] at this
    exact natDigitsRev_ne_nil n (List.reverse_eq_nil_iff.mp this)
  | negSucc m =>
    intro h
    have : (pyIntStr (Int.negSucc m)).toList = [] := by rw [h]; rfl
    simp only [pyIntStr, String.toList] at this
    simp at this

/-! ## Model of POSIX `pathlib` paths

A `pathlib` path is modelled by whether it is absolute and its list of
components (`Path.parts` minus the root entry).  Construction drops empty
and `"."` components and keeps `".."`, exactly as `pathlib` does.
`resolve(strict=False)` without symlinks is lexical `".."` elimination.
-/

/-- Components of a path string: split on `'/'`, dropping empty and `"."`
entries (they are dropped by `pathlib` at construction). -/
def partsOfChars (cs : List Char) : List String :=
  ((cs.splitOn '/').map (fun l => String.mk l)).filter (fun s => !(s == "" || s == "."))

/-- A `pathlib.PurePosixPath`: absolute flag plus components. -/
structure PyPath where
  absolute : Bool
  parts : List String
deriving DecidableEq

/-- Model of `pathlib.Path(s)` for a POSIX path string. -/
def pyPath (s : String) : PyPath :=
  { absolute := s.toList.head? == some '/', parts := partsOfChars s.toList }

/-- Join path components with `'/'` separators. -/
def joinParts (ps : List String) : List Char :=
  List.intercalate ['/'] (ps.map String.toList)

/-- Model of `str(path)`: `"."` for an empty relative path, otherwise the
(root-prefixed) separator-joined components. -/
def PyPath.render (p : PyPath) : String :=
  if p.absolute then String.mk ('/' :: joinParts p.parts)
  else if p.parts.isEmpty then "."
  else String.mk (joinParts p.parts)

/-- A well-formed path component: non-empty, not `"."`, no separator.
Every component produced by `pathlib` satisfies this. -/
def partOk (s : String) : Prop :=
  s ≠ "" ∧ s ≠ "." ∧ '/' ∉ s.toList

instance (s : String) : Decidable (partOk s) := by
  unfold partOk; infer_instance

/-- Well-formedness of a modelled path: every component is well formed. -/
def PyPath.WF (p : PyPath) : Prop := ∀ s ∈ p.parts, partOk s

instance (p : PyPath) : Decidable p.WF := by
  unfold PyPath.WF; infer_instance

/-- Lexical `".."` elimination over resolved components: the model of
`Path.resolve(strict=False)` in a symlink-free filesystem (a `".."` at the
root stays at the root). -/
def resolveParts (ps : List String) : List String :=
  ps.foldl (fun acc q => if q = ".." then acc.dropLast else acc ++ [q]) []

/-- Model of `pathlib.Path(s).name`: the last component, `""` if none. -/
def pyName (s : String) : String :=
  ((pyPath s).parts.getLast?).getD ""

/-- Model of the `/` operator on paths: an absolute right operand replaces
the left one, otherwise components are concatenated. -/
def pyJoin (base : PyPath) (s : String) : PyPath :=
  let p := pyPath s
  if p.absolute then p else { absolute := base.absolute, parts := base.parts ++ p.parts }

theorem string_mk_toList (s : String) : String.mk s.toList = s := rfl

theorem splitOn_joinParts (ps : List String) (h : ∀ s ∈ ps, partOk s) (hne : ps ≠ []) :
    (joinParts ps).splitOn '/' = ps.map String.toList := by
  apply List.splitOn_intercalate
  · intro l hl
    obtain ⟨s, hs, rfl⟩ := List.mem_map.mp hl
    exact (h s hs).2.2
  · simpa using hne

theorem splitOn_cons_sep (cs : List Char) : ('/' :: cs).splitOn '/' = [] :: cs.splitOn '/' := by
  simp [List.splitOn, List.splitOnP_cons]

theorem partsOfChars_joinParts (ps : List String) (h : ∀ s ∈ ps, partOk s) (hne : ps ≠ []) :
    partsOfChars (joinParts ps) = ps := by
  unfold partsOfChars
  rw [splitOn_joinParts ps h hne, List.map_map]
  rw [show ((fun l => String.mk l) ∘ String.toList) = id from funext fun s => string_mk_toList s]
  rw [List.map_id]
  apply List.filter_eq_self.mpr
  intro s hs
  have := h s hs
  simp [this.1, this.2.1]

theorem partsOfChars_abs (ps : List String) (h : ∀ s ∈ ps, partOk s) :
    partsOfChars ('/' :: joinParts ps) = ps := by
  cases hps : ps with
  | nil =>
    subst hps
    decide
  | cons a rest =>
    subst hps
    unfold partsOfChars
    rw [splitOn_cons_sep, splitOn_joinParts _ h (by simp)]
    rw [List.map_cons, List.map_map,
      show ((fun l => String.mk l) ∘ String.toList) = id from funext fun s => string_mk_toList s,
      List.map_id]
    rw [show (String.mk [] : String) = "" from rfl]
    rw [show List.filter (fun s => !(s == "" || s == ".")) ("" :: a :: rest)
        = List.filter (fun s => !(s == "" || s == ".")) (a :: rest) from by
      simp [List.filter_cons]]
    apply List.filter_eq_self.mpr
    intro s hs
    have := h s hs
    simp [this.1, this.2.1]

theorem joinParts_head_eq (a : String) (rest : List String) :
    ∃ x, joinParts (a :: rest) = a.toList ++ x := by
  cases rest with
  | nil => exact ⟨[], by simp [joinParts, List.intercalate]⟩
  | cons b r =>
    refine ⟨'/' :: joinParts (b :: r), ?_⟩
    simp [joinParts, List.intercalate, List.intersperse_cons_cons, List.flatten]

/-- Parsing inverts printing on well-formed paths: the model of
`Path(str(p)) == p`. -/
theorem pyPath_render (p : PyPath) (h : p.WF) : pyPath p.render = p := by
  obtain ⟨abs, parts⟩ := p
  cases abs with
  | true =>
    have hto : (PyPath.render ⟨true, parts⟩).toList = '/' :: joinParts parts := rfl
    unfold pyPath
    rw [hto]
    simp only [PyPath.mk.injEq]
    exact ⟨rfl, partsOfChars_abs parts h⟩
  | false =>
    cases hps : parts with
    | nil =>
      subst hps
      decide
    | cons a rest =>
      subst hps
      have ha := h a (List.mem_cons_self _ _)
      have hto : (PyPath.render ⟨false, a :: rest⟩).toList = joinParts (a :: rest) := rfl
      obtain ⟨x, hx⟩ := joinParts_head_eq a rest
      obtain ⟨c, cs, hcs⟩ : ∃ c cs, a.toList = c :: cs := by
        cases hc : a.toList with
        | nil =>
          exact absurd (show a = "" from congrArg String.mk hc) ha.1
        | cons c cs => exact ⟨c, cs, rfl⟩
      have hcne : c ≠ '/' := by
        intro heq
        exact ha.2.2 (hcs ▸ (heq ▸ List.mem_cons_self c cs))
      unfold pyPath
      rw [hto, hx]
      simp only [PyPath.mk.injEq]
      constructor
      · rw [hcs]
        simp only [List.cons_append, List.head?_cons]
        simp [hcne]
      · rw [← hx]
        exact partsOfChars_joinParts _ h (by simp)

/-! ## Model of `json.dumps` / `json.loads` on lists of strings

Only the fragment the session store uses: a JSON array of strings, with
`'"'` and `'\'` escaped.  (`json.dumps` additionally `\u`-escapes control
and non-ASCII characters; that rewriting is invisible to the round trip
and never arises for the staged path strings.)
-/

/-- Escape one character for a JSON string literal. -/
def jsonEscChar (c : Char) : List Char :=
  if c = '"' || c = '\\' then ['\\', c] else [c]

/-- Escape the body of a JSON string literal. -/
def jsonEncStr (cs : List Char) : List Char :=
  cs.flatMap jsonEscChar

/-- One encoded array element: a quoted, escaped string literal. -/
def jsonElemChars (s : String) : List Char :=
  '"' :: jsonEncStr s.toList ++ ['"']

/-- Model of `json.dumps` on a list of strings (default `", "` separator). -/
def jsonDumps (l : List String) : String :=
  String.mk ('[' :: List.intercalate [',', ' '] (l.map jsonElemChars) ++ [']'])

/-- Parse a JSON string literal body up to its closing quote, undoing
escapes; returns the body and the remaining input. -/
def jsonParseStr : List Char → Option (List Char × List Char)
  | [] => none
  | c :: rest =>
    if c = '\\' then
      match rest with
      | [] => none
      | d :: rest2 => (jsonParseStr rest2).map (fun p => (d :: p.1, p.2))
    else if c = '"' then some ([], rest)
    else (jsonParseStr rest).map (fun p => (c :: p.1, p.2))

/-- Drop space characters (the only inter-token whitespace `dumps` emits). -/
def skipSpaces (cs : List Char) : List Char :=
  cs.dropWhile (fun c => c = ' ')

theorem length_dropWhile_le' (p : Char → Bool) (l : List Char) :
    (l.dropWhile p).length ≤ l.length := by
  induction l with
  | nil => simp
  | cons c t ih =>
    rw [List.dropWhile_cons]
    split
    · exact le_trans ih (by simp)
    · simp

theorem jsonParseStr_esc (d : Char) (rest2 : List Char) :
    jsonParseStr ('\\' :: d :: rest2) = (jsonParseStr rest2).map (fun p => (d :: p.1, p.2)) :=
  rfl

theorem jsonParseStr_quote (rest : List Char) :
    jsonParseStr ('"' :: rest) = some ([], rest) := by
  rw [jsonParseStr.eq_def]
  simp

theorem jsonParseStr_other (c : Char) (rest : List Char) (h1 : ¬c = '\\') (h2 : ¬c = '"') :
    jsonParseStr (c :: rest) = (jsonParseStr rest).map (fun p => (c :: p.1, p.2)) := by
  rw [jsonParseStr.eq_def]
  simp [h1, h2]

theorem jsonParseStr_length (cs : List Char) :
    ∀ out rest, jsonParseStr cs = some (out, rest) → rest.length < cs.length := by
  induction cs using jsonParseStr.induct with
  | case1 =>
    intro out rest h
    simp [jsonParseStr] at h
  | case2 =>
    intro out rest h
    simp [jsonParseStr] at h
  | case3 d rest2 ih =>
    intro out rest h
    rw [jsonParseStr_esc] at h
    cases hp : jsonParseStr rest2 with
    | none => rw [hp] at h; simp at h
    | some p =>
      rw [hp] at h
      simp only [Option.map_some', Option.some.injEq] at h
      have hlt := ih p.1 p.2 (by rw [hp])
      have hr : p.2 = rest := by simpa using congrArg Prod.snd h
      subst hr
      simp only [List.length_cons]
      omega
  | case4 rest2 hq =>
    intro out rest h
    rw [jsonParseStr_quote] at h
    cases h
    simp
  | case5 d rest2 h1 h2 ih =>
    intro out rest h
    rw [jsonParseStr_other d rest2 h1 h2] at h
    cases hp : jsonParseStr rest2 with
    | none => rw [hp] at h; simp at h
    | some p =>
      rw [hp] at h
      simp only [Option.map_some', Option.some.injEq] at h
      have hlt := ih p.1 p.2 (by rw [hp])
      have hr : p.2 = rest := by simpa using congrArg Prod.snd h
      subst hr
      simp only [List.length_cons]
      omega

/-- Parse the elements of a JSON array of strings, positioned at the first
element; returns the elements and the input after the closing bracket. -/
def jsonItems (cs : List Char) : Option (List String × List Char) :=
  match cs with
  | '"' :: rest =>
    match h : jsonParseStr rest with
    | none => none
    | some p =>
      match h2 : skipSpaces p.2 with
      | ']' :: r2 => some ([String.mk p.1], r2)
      | ',' :: r2 =>
        (jsonItems (skipSpaces r2)).map (fun q => (String.mk p.1 :: q.1, q.2))
      | _ => none
  | _ => none
termination_by cs.length
decreasing_by
  have hl1 : p.2.length < rest.length := jsonParseStr_length rest p.1 p.2 (by rw [h])
  have hs1 := length_dropWhile_le' (fun c => c = ' ') p.2
  have hlr2 : r2.length < (skipSpaces p.2).length := by
    rw [h2]
    simp
  have hs2 := length_dropWhile_le' (fun c => c = ' ') r2
  simp only [List.length_cons]
  unfold skipSpaces at hs1 hlr2 hs2 ⊢
  omega

theorem jsonItems_last (rest out : List Char)
    (hp : jsonParseStr rest = some (out, [']'])) :
    jsonItems ('"' :: rest) = some ([String.mk out], []) := by
  rw [jsonItems.eq_def]
  split
  · rename_i rest1 heq0
    obtain rfl : rest1 = rest := by
      cases heq0
      rfl
    split
    · rename_i heq
      rw [hp] at heq
      cases heq
    · rename_i p heq
      rw [hp] at heq
      cases heq
      rfl
  · rename_i heq
    exact (heq rest rfl).elim

theorem jsonItems_step (rest out rest2 : List Char)
    (hp : jsonParseStr rest = some (out, ',' :: ' ' :: rest2))
    (hss : skipSpaces rest2 = rest2) :
    jsonItems ('"' :: rest) =
      (jsonItems rest2).map (fun q => (String.mk out :: q.1, q.2)) := by
  rw [jsonItems.eq_def]
  split
  · rename_i rest1 heq0
    obtain rfl : rest1 = rest := by
      cases heq0
      rfl
    split
    · rename_i heq
      rw [hp] at heq
      cases heq
    · rename_i p heq
      rw [hp] at heq
      cases heq
      show (jsonItems (skipSpaces rest2)).map (fun q => (String.mk out :: q.1, q.2)) =
        (jsonItems rest2).map (fun q => (String.mk out :: q.1, q.2))
      rw [hss]
  · rename_i heq
    exact (heq rest rfl).elim

/-- Model of `json.loads` on a document produced by `jsonDumps`. -/
def jsonLoads (s : String) : Option (List String) :=
  match s.toList with
  | '[' :: rest =>
    match skipSpaces rest with
    | ']' :: r2 => if skipSpaces r2 = [] then some [] else none
    | other =>
      match jsonItems other with
      | some q => if skipSpaces q.2 = [] then some q.1 else none
      | none => none
  | _ => none

theorem jsonParseStr_enc (cs rest : List Char) :
    jsonParseStr (jsonEncStr cs ++ '"' :: rest) = some (cs, rest) := by
  induction cs with
  | nil => simpa [jsonEncStr] using jsonParseStr_quote rest
  | cons c t ih =>
    by_cases hc : c = '"' ∨ c = '\\'
    · have henc : jsonEncStr (c :: t) = '\\' :: c :: jsonEncStr t := by
        rcases hc with hc | hc <;> subst hc <;> simp [jsonEncStr, jsonEscChar]
      rw [henc, List.cons_append, List.cons_append, jsonParseStr_esc, ih]
      rfl
    · push_neg at hc
      have henc : jsonEncStr (c :: t) = c :: jsonEncStr t := by
        simp [jsonEncStr, jsonEscChar, hc.1, hc.2]
      rw [henc, List.cons_append, jsonParseStr_other c _ hc.2 hc.1, ih]
      rfl

theorem intercalate_cons2 {α : Type} (sep : List α) (x y : List α) (l : List (List α)) :
    List.intercalate sep (x :: y :: l) = x ++ sep ++ List.intercalate sep (y :: l) := by
  simp [List.intercalate, List.intersperse_cons_cons]

theorem intercalate_cons_ne {α : Type} (sep x : List α) (l : List (List α)) (h : l ≠ []) :
    List.intercalate sep (x :: l) = x ++ sep ++ List.intercalate sep l := by
  cases l with
  | nil => exact absurd rfl h
  | cons y m => exact intercalate_cons2 sep x y m

theorem skipSpaces_cons_of_ne (c : Char) (l : List Char) (h : ¬c = ' ') :
    skipSpaces (c :: l) = c :: l := by
  simp [skipSpaces, List.dropWhile_cons, h]

theorem jsonItems_dumps_cons (a : String) (l : List String) :
    jsonItems (List.intercalate [',', ' '] ((a :: l).map jsonElemChars) ++ [']'])
      = some (a :: l, []) := by
  induction l generalizing a with
  | nil =>
    have hsingle : List.intercalate [',', ' '] ([a].map jsonElemChars) = jsonElemChars a := by
      simp [List.intercalate]
    rw [List.map_cons, List.map_nil] at hsingle ⊢
    rw [hsingle]
    have hform : jsonElemChars a ++ [']'] = '"' :: (jsonEncStr a.toList ++ '"' :: [']']) := by
      simp [jsonElemChars]
    rw [hform, jsonItems_last _ _ (jsonParseStr_enc a.toList [']']), string_mk_toList]
  | cons b t2 ih =>
    rw [List.map_cons, intercalate_cons_ne _ _ _ (by simp)]
    have hform : (jsonElemChars a ++ [',', ' ']
          ++ List.intercalate [',', ' '] ((b :: t2).map jsonElemChars)) ++ [']']
        = '"' :: (jsonEncStr a.toList ++ '"' :: ',' :: ' '
          :: (List.intercalate [',', ' '] ((b :: t2).map jsonElemChars) ++ [']'])) := by
      simp [jsonElemChars]
    rw [hform]
    have hss : skipSpaces (List.intercalate [',', ' '] ((b :: t2).map jsonElemChars) ++ [']'])
        = List.intercalate [',', ' '] ((b :: t2).map jsonElemChars) ++ [']'] := by
      obtain ⟨z, hz⟩ : ∃ z, List.intercalate [',', ' '] ((b :: t2).map jsonElemChars)
          = jsonElemChars b ++ z := by
        cases t2 with
        | nil => exact ⟨[], by simp [List.intercalate]⟩
        | cons c2 t3 =>
          refine ⟨[',', ' '] ++ List.intercalate [',', ' '] ((c2 :: t3).map jsonElemChars), ?_⟩
          rw [List.map_cons, intercalate_cons_ne _ _ _ (by simp)]
          simp
      rw [hz]
      rw [show (jsonElemChars b ++ z) ++ [']']
          = '"' :: ((jsonEncStr b.toList ++ ['"']) ++ z ++ [']']) from by simp [jsonElemChars]]
      exact skipSpaces_cons_of_ne _ _ (by decide)
    rw [jsonItems_step _ _ _ (jsonParseStr_enc a.toList _) hss, ih b, string_mk_toList]
    rfl

/-- Loading inverts dumping on every list of strings: the model of
`json.loads(json.dumps(l)) == l`. -/
theorem jsonLoads_jsonDumps (l : List String) : jsonLoads (jsonDumps l) = some l := by
  cases l with
  | nil => decide
  | cons a t =>
    have hbody : (jsonDumps (a :: t)).toList
        = '[' :: (List.intercalate [',', ' '] ((a :: t).map jsonElemChars) ++ [']']) := rfl
    obtain ⟨Y, hY⟩ : ∃ Y, List.intercalate [',', ' '] ((a :: t).map jsonElemChars) ++ [']']
        = '"' :: Y := by
      obtain ⟨z, hz⟩ : ∃ z, List.intercalate [',', ' '] ((a :: t).map jsonElemChars)
          = jsonElemChars a ++ z := by
        cases t with
        | nil => exact ⟨[], by simp [List.intercalate]⟩
        | cons b t2 =>
          refine ⟨[',', ' '] ++ List.intercalate [',', ' '] ((b :: t2).map jsonElemChars), ?_⟩
          rw [List.map_cons, intercalate_cons_ne _ _ _ (by simp)]
          simp
      refine ⟨(jsonEncStr a.toList ++ ['"']) ++ z ++ [']'], ?_⟩
      rw [hz]
      simp [jsonElemChars]
    unfold jsonLoads
    rw [hbody, hY]
    show (match jsonItems ('"' :: Y) with
      | some q => if skipSpaces q.2 = [] then some q.1 else none
      | none => none) = some (a :: t)
    rw [← hY, jsonItems_dumps_cons a t]
    rfl

/-! ## Session store serialization (`bot/storage.py`, `ApplicationStore`)

`_serialize` / `_deserialize` dispatch on the field name (`_LIST_FIELDS`,
`_INT_FIELDS`, `"session_dir"`) and on the runtime type of the value.
Session field values of the supported kinds are modelled by `SessVal`.
-/

/-- A session field value of one of the kinds the store supports:
a free-form string, the photos list of paths, the nullable integer
prompt-message id, or the nullable working-directory path. -/
inductive SessVal where
  | vstr (s : String)
  | vphotos (l : List PyPath)
  | vint (n : Option Int)
  | vpath (p : Option PyPath)
deriving DecidableEq

namespace ApplicationStore

/-- `ApplicationStore._LIST_FIELDS`. -/
def _LIST_FIELDS : List String := ["photos"]

/-- `ApplicationStore._INT_FIELDS`. -/
def _INT_FIELDS : List String := ["_photo_prompt_message_id"]

/-- Model of one field of `ApplicationStore._serialize`: list fields are
JSON-dumped path strings, int fields are `""` for `None` and `str(value)`
otherwise, `Path` values become `str(value)`, `None` becomes `""`, and
anything else becomes `str(value)`.  `none` marks a field/value pairing
the store does not support (the Python code would emit `str` of some
unrelated object there). -/
def serializeField (field : String) (v : SessVal) : Option String :=
  if field ∈ _LIST_FIELDS then
    match v with
    | .vphotos l => some (jsonDumps (l.map PyPath.render))
    | _ => none
  else if field ∈ _INT_FIELDS then
    match v with
    | .vint none => some ""
    | .vint (some n) => some (pyIntStr n)
    | _ => none
  else
    match v with
    | .vpath (some p) => some p.render
    | .vpath none => some ""
    | .vstr s => some s
    | _ => none

/-- Model of one field of `ApplicationStore._deserialize`: list fields are
JSON-loaded into paths (`""` gives the empty list), int fields are parsed
with `int()` (`""` gives `None`), `"session_dir"` is parsed as a path
(`""` gives `None`), anything else passes through as an opaque string.
`none` models the exceptions `json.loads`/`int` raise on malformed data. -/
def deserializeField (field : String) (s : String) : Option SessVal :=
  if field ∈ _LIST_FIELDS then
    if s ≠ "" then (jsonLoads s).map (fun l => .vphotos (l.map pyPath))
    else some (.vphotos [])
  else if field ∈ _INT_FIELDS then
    if s ≠ "" then (pyInt s).map (fun n => .vint (some n))
    else some (.vint none)
  else if field = "session_dir" then
    some (.vpath (if s = "" then none else some (pyPath s)))
  else some (.vstr s)

/-- The supported field/value pairings of the session store: the photos
list belongs to a list field (with well-formed paths), the nullable int to
an int field, the nullable working-directory path to `"session_dir"`, and
free-form strings to every remaining field. -/
def SupportedField (field : String) (v : SessVal) : Prop :=
  match v with
  | .vstr _ => field ∉ _LIST_FIELDS ∧ field ∉ _INT_FIELDS ∧ field ≠ "session_dir"
  | .vphotos l => field ∈ _LIST_FIELDS ∧ ∀ p ∈ l, p.WF
  | .vint _ => field ∈ _INT_FIELDS
  | .vpath (some p) => field = "session_dir" ∧ p.WF
  | .vpath none => field = "session_dir"

end ApplicationStore

theorem render_ne_empty (p : PyPath) (hwf : p.WF) : p.render ≠ "" := by
  unfold PyPath.render
  split
  · intro h
    have : (String.mk ('/' :: joinParts p.parts)).toList = ("" : String).toList := by rw [h]
    simp only [String.toList] at this
    cases this
  · split
    · decide
    · next hemp =>
      intro h
      have hlist : joinParts p.parts = [] := by
        have : (String.mk (joinParts p.parts)).toList = ("" : String).toList := by rw [h]
        simpa [String.toList] using this
      cases hp : p.parts with
      | nil => rw [hp] at hemp; simp at hemp
      | cons a rest =>
        obtain ⟨x, hx⟩ := joinParts_head_eq a rest
        rw [hp, hx] at hlist
        rcases List.append_eq_nil.mp hlist with ⟨ha, -⟩
        have : a = "" := congrArg String.mk ha
        exact (hwf a (hp ▸ List.mem_cons_self a rest)).1 this

theorem jsonDumps_ne_empty (l : List String) : jsonDumps l ≠ "" := by
  intro h
  have : (jsonDumps l).toList = ("" : String).toList := by rw [h]
  simp only [jsonDumps, String.toList] at this
  cases this

instance (field : String) (v : SessVal) :
    Decidable (ApplicationStore.SupportedField field v) := by
  cases v with
  | vstr s =>
    exact inferInstanceAs (Decidable (field ∉ ApplicationStore._LIST_FIELDS ∧
      field ∉ ApplicationStore._INT_FIELDS ∧ field ≠ "session_dir"))
  | vphotos l =>
    exact inferInstanceAs (Decidable (field ∈ ApplicationStore._LIST_FIELDS ∧ ∀ p ∈ l, p.WF))
  | vint n => exact inferInstanceAs (Decidable (field ∈ ApplicationStore._INT_FIELDS))
  | vpath po =>
    cases po with
    | none => exact inferInstanceAs (Decidable (field = "session_dir"))
    | some p => exact inferInstanceAs (Decidable (field = "session_dir" ∧ p.WF))

theorem mem_list_fields_iff (field : String) :
    field ∈ ApplicationStore._LIST_FIELDS ↔ field = "photos" := by
  simp [ApplicationStore._LIST_FIELDS]

theorem mem_int_fields_iff (field : String) :
    field ∈ ApplicationStore._INT_FIELDS ↔ field = "_photo_prompt_message_id" := by
  simp [ApplicationStore._INT_FIELDS]

/-- C5: for every session field value of a supported kind — a free-form
string, the photos list of paths (including the empty list), the nullable
integer prompt-message id (including `None`), and the working-directory
path field `session_dir` — serializing the value as `init_session` /
`set_fields` do and then deserializing it as `get` does returns exactly
the original semantic value. -/
theorem C5_session_field_roundtrip (field : String) (v : SessVal)
    (h : ApplicationStore.SupportedField field v) :
    ∃ s, ApplicationStore.serializeField field v = some s ∧
      ApplicationStore.deserializeField field s = some v := by
  cases v with
  | vstr s =>
    obtain ⟨h1, h2, h3⟩ := h
    refine ⟨s, ?_, ?_⟩
    · simp [ApplicationStore.serializeField, h1, h2]
    · simp [ApplicationStore.deserializeField, h1, h2, h3]
  | vphotos l =>
    obtain ⟨h1, h2⟩ := h
    refine ⟨jsonDumps (l.map PyPath.render), ?_, ?_⟩
    · simp [ApplicationStore.serializeField, h1]
    · simp only [ApplicationStore.deserializeField, if_pos h1,
        if_pos (jsonDumps_ne_empty (l.map PyPath.render)), jsonLoads_jsonDumps,
        Option.map_some', Option.some.injEq]
      rw [List.map_map]
      congr 1
      rw [show pyPath ∘ PyPath.render = fun p => pyPath p.render from rfl]
      calc l.map (fun p => pyPath p.render) = l.map id := by
            apply List.map_congr_left
            intro p hp
            exact pyPath_render p (h2 p hp)
        _ = l := List.map_id l
  | vint n =>
    have hfield : field = "_photo_prompt_message_id" := (mem_int_fields_iff field).mp h
    subst hfield
    cases n with
    | none =>
      refine ⟨"", ?_, ?_⟩
      · simp [ApplicationStore.serializeField, ApplicationStore._LIST_FIELDS,
          ApplicationStore._INT_FIELDS]
      · simp [ApplicationStore.deserializeField, ApplicationStore._LIST_FIELDS,
          ApplicationStore._INT_FIELDS]
    | some k =>
      refine ⟨pyIntStr k, ?_, ?_⟩
      · simp [ApplicationStore.serializeField, ApplicationStore._LIST_FIELDS,
          ApplicationStore._INT_FIELDS]
      · simp [ApplicationStore.deserializeField, ApplicationStore._LIST_FIELDS,
          ApplicationStore._INT_FIELDS, pyIntStr_ne_empty k, pyInt_pyIntStr k]
  | vpath po =>
    cases po with
    | none =>
      have hfield : field = "session_dir" := h
      subst hfield
      refine ⟨"", ?_, ?_⟩
      · simp [ApplicationStore.serializeField, ApplicationStore._LIST_FIELDS,
          ApplicationStore._INT_FIELDS]
      · simp [ApplicationStore.deserializeField, ApplicationStore._LIST_FIELDS,
          ApplicationStore._INT_FIELDS]
    | some p =>
      obtain ⟨hfield, hwf⟩ := h
      subst hfield
      refine ⟨p.render, ?_, ?_⟩
      · simp [ApplicationStore.serializeField, ApplicationStore._LIST_FIELDS,
          ApplicationStore._INT_FIELDS]
      · simp [ApplicationStore.deserializeField, ApplicationStore._LIST_FIELDS,
          ApplicationStore._INT_FIELDS, render_ne_empty p hwf, pyPath_render p hwf]

/-- Witness for C5 at a concrete supported value of each kind. -/
theorem C5_session_field_roundtrip_witness :
    (ApplicationStore.SupportedField "photos" (SessVal.vphotos [pyPath "media/1.jpg"]) ∧
      ∃ s, ApplicationStore.serializeField "photos" (SessVal.vphotos [pyPath "media/1.jpg"])
          = some s ∧
        ApplicationStore.deserializeField "photos" s
          = some (SessVal.vphotos [pyPath "media/1.jpg"])) ∧
    (ApplicationStore.SupportedField "position" (SessVal.vstr "Coat") ∧
      ∃ s, ApplicationStore.serializeField "position" (SessVal.vstr "Coat") = some s ∧
        ApplicationStore.deserializeField "position" s = some (SessVal.vstr "Coat")) ∧
    (ApplicationStore.SupportedField "_photo_prompt_message_id" (SessVal.vint (some 42)) ∧
      ∃ s, ApplicationStore.serializeField "_photo_prompt_message_id" (SessVal.vint (some 42))
          = some s ∧
        ApplicationStore.deserializeField "_photo_prompt_message_id" s
          = some (SessVal.vint (some 42))) ∧
    (ApplicationStore.SupportedField "session_dir" (SessVal.vpath (some (pyPath "/srv/media/s1"))) ∧
      ∃ s, ApplicationStore.serializeField "session_dir"
            (SessVal.vpath (some (pyPath "/srv/media/s1"))) = some s ∧
        ApplicationStore.deserializeField "session_dir" s
          = some (SessVal.vpath (some (pyPath "/srv/media/s1")))) :=
  ⟨⟨by decide, C5_session_field_roundtrip _ _ (by decide)⟩,
    ⟨by decide, C5_session_field_roundtrip _ _ (by decide)⟩,
    ⟨by decide, C5_session_field_roundtrip _ _ (by decide)⟩,
    ⟨by decide, C5_session_field_roundtrip _ _ (by decide)⟩⟩

/-! ## Admin record store (`bot/admin.py`)

The Valkey client is modelled as association lists for hashes and sets,
plus per-key fault lists: a key listed in `…Errs` makes the corresponding
operation raise `ValkeyError`.  The Telegram `context` carries the key
prefix (`valkey_prefix`, default `"second_hand"`) and the optional client
(`valkey_client`), modelled by `AdminCtx`.  Timestamps produced by
`datetime.now(UTC).isoformat()` enter the model as explicit arguments.
-/

/-- Association list lookup (`dict.get`). -/
def alGet {α : Type} (l : List (String × α)) (k : String) : Option α :=
  (l.find? (fun kv => kv.1 == k)).map (fun kv => kv.2)

/-- Set or replace one key in an association list (`dict` item write). -/
def alPut {α : Type} : List (String × α) → String → α → List (String × α)
  | [], k, v => [(k, v)]
  | (k1, v1) :: t, k, v => if k1 = k then (k, v) :: t else (k1, v1) :: alPut t k v

/-- Merge a field mapping into an association list (`dict.update`,
which is also what one Valkey `hset` with a mapping does). -/
def alPutMany {α : Type} (l : List (String × α)) (m : List (String × α)) :
    List (String × α) :=
  m.foldl (fun acc kv => alPut acc kv.1 kv.2) l

/-- Remove the listed keys from an association list (`hdel`). -/
def alDrop {α : Type} (l : List (String × α)) (ks : List String) : List (String × α) :=
  l.filter (fun kv => !(ks.contains kv.1))

/-- The Valkey client state: hashes, sets, and fault-injection lists (keys
on which an operation raises `ValkeyError`). -/
structure Client where
  hashes : List (String × List (String × String))
  sets : List (String × List String)
  hgetallErrs : List String := []
  smembersErrs : List String := []
  hsetErrs : List String := []
  hdelErrs : List String := []
deriving DecidableEq

/-- `client.hgetall(key)`: the stored field mapping, `{}` when absent. -/
def Client.hgetall (c : Client) (key : String) : Except Unit (List (String × String)) :=
  if c.hgetallErrs.contains key then .error () else .ok ((alGet c.hashes key).getD [])

/-- `client.smembers(key)`: the stored member set, empty when absent. -/
def Client.smembers (c : Client) (key : String) : Except Unit (List String) :=
  if c.smembersErrs.contains key then .error () else .ok ((alGet c.sets key).getD [])

/-- `client.hset(key, mapping=m)`: merge `m` into the hash at `key`. -/
def Client.hset (c : Client) (key : String) (m : List (String × String)) :
    Except Unit Client :=
  if c.hsetErrs.contains key then .error ()
  else .ok { c with hashes := alPut c.hashes key (alPutMany ((alGet c.hashes key).getD []) m) }

/-- `client.hdel(key, *fields)`: remove the fields from the hash at `key`. -/
def Client.hdel (c : Client) (key : String) (fs : List String) : Except Unit Client :=
  if c.hdelErrs.contains key then .error ()
  else .ok { c with hashes := alPut c.hashes key (alDrop ((alGet c.hashes key).getD []) fs) }

/-- The slice of the Telegram context the admin helpers read:
`bot_data["valkey_prefix"]` (`pfx`) and `bot_data["valkey_client"]`. -/
structure AdminCtx where
  pfx : String
  client : Option Client
deriving DecidableEq

/-- The hash key of an application record: the prefix, `":"`, and the
session key. -/
def appKey (ctx : AdminCtx) (session_key : String) : String :=
  ctx.pfx ++ ":" ++ session_key

/-- `load_application`: `hgetall`, with `ValkeyError` and the empty hash
both collapsing to `{}` (byte decoding is the identity in the model). -/
def load_application (client : Client) (key : String) : List (String × String) :=
  match client.hgetall key with
  | .error _ => []
  | .ok raw => raw

/-- A value passed in an `update_application_fields` field mapping:
`list`/`tuple`/`set` values are comma-joined, `None` becomes `""`,
everything else is `str(value)` (strings pass through). -/
inductive AVal where
  | vstr (s : String)
  | vlist (l : List String)
  | vnone
deriving DecidableEq

/-- The serialization loop of `update_application_fields`. -/
def serializeAVal : AVal → String
  | .vstr s => s
  | .vlist l => String.intercalate "," l
  | .vnone => ""

/-- `update_application_fields(context, session_key, user_id, **fields)`.
Returns the success flag and the (possibly updated) context. -/
def update_application_fields (ctx : AdminCtx) (session_key : String) (user_id : Int)
    (fields : List (String × AVal)) : Bool × AdminCtx :=
  if fields.isEmpty then (true, ctx)
  else
    match ctx.client with
    | none => (false, ctx)
    | some client =>
      let key := appKey ctx session_key
      let record := load_application client key
      if record.isEmpty then (false, ctx)
      else if alGet record "user_id" ≠ some (pyIntStr user_id) then (false, ctx)
      else
        let serialized := fields.map (fun fv => (fv.1, serializeAVal fv.2))
        match client.hset key serialized with
        | .error _ => (false, ctx)
        | .ok c2 => (true, { ctx with client := some c2 })

/-- `mark_application_revoked(context, session_key, user_id)`; `now_iso`
is the `datetime.now(UTC).isoformat()` value the call would produce. -/
def mark_application_revoked (ctx : AdminCtx) (session_key : String) (user_id : Int)
    (now_iso : String) : Bool × AdminCtx :=
  match ctx.client with
  | none => (false, ctx)
  | some client =>
    let key := appKey ctx session_key
    let record := load_application client key
    if record.isEmpty then (false, ctx)
    else if alGet record "user_id" ≠ some (pyIntStr user_id) then (false, ctx)
    else if (alGet record "revoked_at").getD "" ≠ "" then (false, ctx)
    else if now_iso = "" then (false, ctx)
    else
      match client.hset key [("revoked_at", now_iso), ("revoked_by", pyIntStr user_id)] with
      | .error _ => (false, ctx)
      | .ok c2 => (true, { ctx with client := some c2 })

/-- `mark_application_reviewed(context, session_key, reviewer_id)`;
returns the written timestamp on success, `None` otherwise. -/
def mark_application_reviewed (ctx : AdminCtx) (session_key : String) (reviewer_id : Int)
    (now_iso : String) : Option String × AdminCtx :=
  match ctx.client with
  | none => (none, ctx)
  | some client =>
    let key := appKey ctx session_key
    let record := load_application client key
    if record.isEmpty then (none, ctx)
    else
      match client.hset key [("reviewed_at", now_iso), ("reviewed_by", pyIntStr reviewer_id)] with
      | .error _ => (none, ctx)
      | .ok c2 => (some now_iso, { ctx with client := some c2 })

/-- `clear_application_review(context, session_key)`. -/
def clear_application_review (ctx : AdminCtx) (session_key : String) : Bool × AdminCtx :=
  match ctx.client with
  | none => (false, ctx)
  | some client =>
    let key := appKey ctx session_key
    let record := load_application client key
    if record.isEmpty then (false, ctx)
    else
      match client.hdel key ["reviewed_at", "reviewed_by"] with
      | .error _ => (false, ctx)
      | .ok c2 => (true, { ctx with client := some c2 })

/-- Code-point lexicographic `≤` on character lists: the order Python
uses to compare strings. -/
def charsLe : List Char → List Char → Bool
  | [], _ => true
  | _ :: _, [] => false
  | a :: as, b :: bs => if a = b then charsLe as bs else decide (a.toNat < b.toNat)

/-- Python string `<=`. -/
def strLe (a b : String) : Bool := charsLe a.toList b.toList

/-- Insert into a sorted list: one step of the stable insertion sort
used to model Python `sorted` / `list.sort`. -/
def insertSorted {α : Type} (le : α → α → Bool) (a : α) : List α → List α
  | [] => [a]
  | b :: t => if le a b then a :: b :: t else b :: insertSorted le a t

/-- Model of Python `sorted` / `list.sort` with a boolean `≤` test; only
the output being a permutation matters to the properties below. -/
def sortBy {α : Type} (le : α → α → Bool) (l : List α) : List α :=
  l.foldr (insertSorted le) []

theorem mem_insertSorted {α : Type} (le : α → α → Bool) (a x : α) (l : List α) :
    x ∈ insertSorted le a l ↔ x = a ∨ x ∈ l := by
  induction l with
  | nil => simp [insertSorted]
  | cons b t ih =>
    simp only [insertSorted]
    split
    · simp
    · simp only [List.mem_cons, ih]
      tauto

theorem mem_sortBy {α : Type} (le : α → α → Bool) (x : α) (l : List α) :
    x ∈ sortBy le l ↔ x ∈ l := by
  induction l with
  | nil => simp [sortBy]
  | cons b t ih =>
    simp only [sortBy, List.foldr_cons] at ih ⊢
    rw [mem_insertSorted, ih, List.mem_cons]

/-- `list_application_keys(context)`: the sorted members of the
applications index set, `[]` when the client is missing or errors. -/
def list_application_keys (ctx : AdminCtx) : List String :=
  match ctx.client with
  | none => []
  | some client =>
    match client.smembers (ctx.pfx ++ ":" ++ "applications") with
    | .error _ => []
    | .ok raw => sortBy strLe raw

/-- `fetch_all_submissions(context)`: `None` when the client is missing,
otherwise the non-empty records of the indexed keys, sorted by
`created_at` descending. -/
def fetch_all_submissions (ctx : AdminCtx) : Option (List (List (String × String))) :=
  match ctx.client with
  | none => none
  | some client =>
    let submissions := (list_application_keys ctx).foldl
      (fun acc key =>
        let record := load_application client key
        if record.isEmpty then acc else acc ++ [record]) []
    some (sortBy
      (fun a b => strLe ((alGet b "created_at").getD "") ((alGet a "created_at").getD ""))
      submissions)

theorem alGet_isEmpty_false {α : Type} {l : List (String × α)} {k : String} {v : α}
    (h : alGet l k = some v) : l.isEmpty = false := by
  cases l with
  | nil => simp [alGet] at h
  | cons a t => rfl

/-- C10: an empty field mapping makes `update_application_fields` return
`True` immediately, for every context (client present or not, record
present or not, any acting user): the empty-update case bypasses both the
existence check and the ownership gate and neither reads nor writes the
store (the context is returned untouched and the result does not depend
on it). -/
theorem C10_empty_update_returns_true (ctx : AdminCtx) (session_key : String)
    (user_id : Int) :
    update_application_fields ctx session_key user_id [] = (true, ctx) := by
  simp [update_application_fields]

/-- C8 (amended): for a session key with no stored record (absent or
empty hash) and a NON-EMPTY field mapping, `update_application_fields`
returns `False` without raising, for every acting user; an empty mapping
instead returns `True` before the store is consulted. -/
theorem C8_missing_record_update_false (ctx : AdminCtx) (client : Client)
    (session_key : String) (user_id : Int) (fields : List (String × AVal))
    (hc : ctx.client = some client)
    (hrec : load_application client (appKey ctx session_key) = [])
    (hne : fields ≠ []) :
    update_application_fields ctx session_key user_id fields = (false, ctx) := by
  have hie : fields.isEmpty = false := by
    cases fields with
    | nil => exact absurd rfl hne
    | cons a t => rfl
  unfold update_application_fields
  rw [hie, hc]
  simp [hrec]

/-- Witness for C8 (amended) at a concrete store without the record. -/
theorem C8_missing_record_update_false_witness :
    update_application_fields
        { pfx := "second_hand", client := some { hashes := [], sets := [] } }
        "missing" 5 [("position", AVal.vstr "Hat")]
      = (false, { pfx := "second_hand", client := some { hashes := [], sets := [] } }) :=
  C8_missing_record_update_false _ _ _ _ _ rfl rfl (by decide)

/-- C8 counterexample: with an EMPTY field mapping the same call on the
same store (still holding no record for the key) returns `True`, so the
claim "returns false ... for every field mapping" fails at the empty
mapping. -/
theorem C8_counterexample :
    load_application { hashes := [], sets := [] }
        (appKey { pfx := "second_hand", client := some { hashes := [], sets := [] } } "missing")
      = [] ∧
    update_application_fields
        { pfx := "second_hand", client := some { hashes := [], sets := [] } }
        "missing" 5 []
      = (true, { pfx := "second_hand", client := some { hashes := [], sets := [] } }) :=
  ⟨rfl, rfl⟩

/-- C2: `update_application_fields` by any user other than the stored
owner returns `False` and leaves the store byte-for-byte unchanged, for
every non-empty field mapping. -/
theorem C2_ownership_gate (ctx : AdminCtx) (client : Client) (session_key : String)
    (owner_id user_id : Int) (fields : List (String × AVal))
    (hc : ctx.client = some client)
    (howner : alGet (load_application client (appKey ctx session_key)) "user_id"
      = some (pyIntStr owner_id))
    (hne_user : user_id ≠ owner_id) (hfields : fields ≠ []) :
    update_application_fields ctx session_key user_id fields = (false, ctx) := by
  have hie : fields.isEmpty = false := by
    cases fields with
    | nil => exact absurd rfl hfields
    | cons a t => rfl
  have hstr : pyIntStr owner_id ≠ pyIntStr user_id := by
    intro h
    exact hne_user (pyIntStr_inj h).symm
  unfold update_application_fields
  rw [hie, hc]
  simp [alGet_isEmpty_false howner, howner, hstr]

/-- Witness for C2 at a concrete record owned by user 10, acting user 11. -/
theorem C2_ownership_gate_witness :
    update_application_fields
        { pfx := "second_hand",
          client := some
            { hashes := [("second_hand:abc", [("user_id", "10"), ("position", "Coat")])],
              sets := [] } }
        "abc" 11 [("position", AVal.vstr "Hat")]
      = (false,
        { pfx := "second_hand",
          client := some
            { hashes := [("second_hand:abc", [("user_id", "10"), ("position", "Coat")])],
              sets := [] } }) :=
  C2_ownership_gate _ _ _ 10 11 _ rfl (by decide) (by decide) (by decide)

/-- C7 (amended): `fetch_all_submissions` returns the unavailable
sentinel `None` exactly when the client is missing; with a client
present, `ValkeyError` faults inside key listing or record loading are
swallowed per-operation, so the call returns a list (possibly `[]`). -/
theorem C7_none_iff_client_missing (ctx : AdminCtx) :
    fetch_all_submissions ctx = none ↔ ctx.client = none := by
  cases hc : ctx.client with
  | none => simp [fetch_all_submissions, hc]
  | some client => simp [fetch_all_submissions, hc]

/-- C7 counterexample: a context whose client is present but whose index
`smembers` raises `ValkeyError` — a lower-level store fault — makes
`fetch_all_submissions` return the confirmed-empty shape `some []`, not
the unavailable sentinel `none` the claim requires. -/
theorem C7_counterexample :
    (fetch_all_submissions
        { pfx := "second_hand",
          client := some
            { hashes := [("second_hand:abc", [("user_id", "1")])],
              sets := [("second_hand:applications", ["second_hand:abc"])],
              smembersErrs := ["second_hand:applications"] } }
      = some []) ∧
    ({ pfx := "second_hand",
        client := some
          { hashes := [("second_hand:abc", [("user_id", "1")])],
            sets := [("second_hand:applications", ["second_hand:abc"])],
            smembersErrs := ["second_hand:applications"] } : AdminCtx }.client
      ≠ none) :=
  ⟨rfl, by decide⟩

theorem alGet_nil {α : Type} (k : String) : alGet ([] : List (String × α)) k = none := rfl

theorem alGet_cons {α : Type} (k1 : String) (v1 : α) (t : List (String × α)) (k' : String) :
    alGet ((k1, v1) :: t) k' = if k1 = k' then some v1 else alGet t k' := by
  by_cases h : k1 = k'
  · subst h
    simp only [alGet]
    rw [List.find?_cons_of_pos _ (by simp)]
    simp
  · simp only [alGet]
    rw [List.find?_cons_of_neg _ (by simpa using h)]
    simp [h]

theorem alGet_alPut {α : Type} (l : List (String × α)) (k k' : String) (v : α) :
    alGet (alPut l k v) k' = if k' = k then some v else alGet l k' := by
  induction l with
  | nil =>
    show alGet [(k, v)] k' = _
    rw [alGet_cons, alGet_nil]
    by_cases h : k' = k
    · rw [if_pos h.symm, if_pos h]
    · rw [if_neg (fun hh => h hh.symm), if_neg h]
  | cons a t ih =>
    obtain ⟨k1, v1⟩ := a
    simp only [alPut]
    by_cases h1 : k1 = k
    · subst h1
      rw [if_pos rfl, alGet_cons, alGet_cons]
      by_cases h2 : k' = k1
      · rw [if_pos h2.symm, if_pos h2]
      · rw [if_neg (fun hh => h2 hh.symm), if_neg h2, if_neg (fun hh => h2 hh.symm)]
    · rw [if_neg h1, alGet_cons, alGet_cons, ih]
      by_cases h2 : k1 = k'
      · subst h2
        rw [if_pos rfl, if_neg (fun hh => h1 hh), if_pos rfl]
      · rw [if_neg h2, if_neg h2]

theorem alPutMany_pair {α : Type} (l : List (String × α)) (k1 k2 : String) (v1 v2 : α) :
    alPutMany l [(k1, v1), (k2, v2)] = alPut (alPut l k1 v1) k2 v2 := rfl

theorem alDrop_nil {α : Type} (ks : List String) : alDrop ([] : List (String × α)) ks = [] := rfl

theorem alDrop_cons {α : Type} (k1 : String) (v1 : α) (t : List (String × α)) (ks : List String) :
    alDrop ((k1, v1) :: t) ks
      = if ks.contains k1 then alDrop t ks else (k1, v1) :: alDrop t ks := by
  simp only [alDrop, List.filter_cons]
  by_cases h : ks.contains k1
  · simp [h]
  · simp [h]

theorem alGet_alDrop {α : Type} (l : List (String × α)) (ks : List String) (k : String) :
    alGet (alDrop l ks) k = if ks.contains k then none else alGet l k := by
  induction l with
  | nil => simp [alDrop_nil, alGet_nil]
  | cons a t ih =>
    obtain ⟨k1, v1⟩ := a
    rw [alDrop_cons]
    by_cases h1 : ks.contains k1
    · rw [if_pos h1, ih, alGet_cons]
      by_cases h2 : ks.contains k
      · rw [if_pos h2, if_pos h2]
      · have hne : k1 ≠ k := by
          intro hh
          subst hh
          rw [h1] at h2
          exact h2 rfl
        rw [if_neg h2, if_neg h2, if_neg hne]
    · rw [if_neg h1, alGet_cons, alGet_cons, ih]
      by_cases h2 : k1 = k
      · subst h2
        rw [if_neg h1, if_neg h1, if_pos rfl]
      · rw [if_neg h2]
        by_cases h3 : ks.contains k
        · rw [if_pos h3, if_pos h3]
        · rw [if_neg h3, if_neg h3, if_neg h2]

theorem mark_revoked_already (ctx2 : AdminCtx) (c2 : Client) (session_key : String)
    (user_id : Int) (ts : String)
    (hc : ctx2.client = some c2)
    (hne : (load_application c2 (appKey ctx2 session_key)).isEmpty = false)
    (hrev : (alGet (load_application c2 (appKey ctx2 session_key)) "revoked_at").getD "" ≠ "") :
    mark_application_revoked ctx2 session_key user_id ts = (false, ctx2) := by
  unfold mark_application_revoked
  rw [hc]
  simp only [hne, Bool.false_eq_true, if_false]
  by_cases howner : alGet (load_application c2 (appKey ctx2 session_key)) "user_id"
      = some (pyIntStr user_id)
  · simp [howner, hrev]
  · simp [howner]

/-- C3: revoking a not-yet-revoked record twice as its owner yields
`(True, False)`; afterwards `revoked_at` is the timestamp written by the
first call, `revoked_by` is `str(user_id)`, every other field is
unchanged, and the second call leaves the store untouched. -/
theorem C3_revoke_twice (ctx : AdminCtx) (client : Client) (session_key : String)
    (user_id : Int) (ts1 ts2 : String)
    (hc : ctx.client = some client)
    (howner : alGet (load_application client (appKey ctx session_key)) "user_id"
      = some (pyIntStr user_id))
    (hnorev : alGet (load_application client (appKey ctx session_key)) "revoked_at" = none)
    (hts1 : ts1 ≠ "") (hts2 : ts2 ≠ "")
    (hset_ok : client.hsetErrs.contains (appKey ctx session_key) = false) :
    ∃ client2,
      mark_application_revoked ctx session_key user_id ts1
        = (true, { ctx with client := some client2 }) ∧
      mark_application_revoked { ctx with client := some client2 } session_key user_id ts2
        = (false, { ctx with client := some client2 }) ∧
      alGet (load_application client2 (appKey ctx session_key)) "revoked_at" = some ts1 ∧
      alGet (load_application client2 (appKey ctx session_key)) "revoked_by"
        = some (pyIntStr user_id) ∧
      ∀ f, f ≠ "revoked_at" → f ≠ "revoked_by" →
        alGet (load_application client2 (appKey ctx session_key)) f
          = alGet (load_application client (appKey ctx session_key)) f := by
  have hset_nmem : appKey ctx session_key ∉ client.hsetErrs := by
    simpa using hset_ok
  have hget_nmem : appKey ctx session_key ∉ client.hgetallErrs := by
    cases h : client.hgetallErrs.contains (appKey ctx session_key) with
    | false => simpa using h
    | true =>
      have hmem : appKey ctx session_key ∈ client.hgetallErrs := by simpa using h
      have h2 : load_application client (appKey ctx session_key) = [] := by
        simp [load_application, Client.hgetall, hmem]
      rw [h2] at howner
      simp [alGet] at howner
  have hload_eq : load_application client (appKey ctx session_key)
      = (alGet client.hashes (appKey ctx session_key)).getD [] := by
    simp [load_application, Client.hgetall, hget_nmem]
  refine ⟨{ client with
      hashes := alPut client.hashes (appKey ctx session_key)
        (alPut (alPut (load_application client (appKey ctx session_key)) "revoked_at" ts1)
          "revoked_by" (pyIntStr user_id)) }, ?_, ?_, ?_, ?_, ?_⟩
  · unfold mark_application_revoked
    rw [hc]
    simp only [alGet_isEmpty_false howner, Bool.false_eq_true, if_false, howner, ne_eq,
      not_true_eq_false, hnorev, Option.getD_none, not_false_eq_true, hts1,
      Client.hset, if_true, if_false]
    simp [hset_nmem, alPutMany_pair, hload_eq, hts1]
  · have hload2 : load_application
        { client with
          hashes := alPut client.hashes (appKey ctx session_key)
            (alPut (alPut (load_application client (appKey ctx session_key)) "revoked_at" ts1)
              "revoked_by" (pyIntStr user_id)) }
        (appKey ctx session_key)
        = alPut (alPut (load_application client (appKey ctx session_key)) "revoked_at" ts1)
            "revoked_by" (pyIntStr user_id) := by
      simp [load_application, Client.hgetall, hget_nmem, alGet_alPut]
    have hrevat : alGet
        (alPut (alPut (load_application client (appKey ctx session_key)) "revoked_at" ts1)
          "revoked_by" (pyIntStr user_id)) "revoked_at" = some ts1 := by
      rw [alGet_alPut, if_neg (by decide), alGet_alPut, if_pos rfl]
    apply mark_revoked_already
    · rfl
    · show (load_application _ (appKey ctx session_key)).isEmpty = false
      rw [hload2]
      exact alGet_isEmpty_false hrevat
    · show (alGet (load_application _ (appKey ctx session_key)) "revoked_at").getD "" ≠ ""
      rw [hload2, hrevat]
      simpa using hts1

  · have hload2 : load_application
        { client with
          hashes := alPut client.hashes (appKey ctx session_key)
            (alPut (alPut (load_application client (appKey ctx session_key)) "revoked_at" ts1)
              "revoked_by" (pyIntStr user_id)) }
        (appKey ctx session_key)
        = alPut (alPut (load_application client (appKey ctx session_key)) "revoked_at" ts1)
            "revoked_by" (pyIntStr user_id) := by
      simp [load_application, Client.hgetall, hget_nmem, alGet_alPut]
    rw [hload2, alGet_alPut, if_neg (by decide), alGet_alPut, if_pos rfl]
  · have hload2 : load_application
        { client with
          hashes := alPut client.hashes (appKey ctx session_key)
            (alPut (alPut (load_application client (appKey ctx session_key)) "revoked_at" ts1)
              "revoked_by" (pyIntStr user_id)) }
        (appKey ctx session_key)
        = alPut (alPut (load_application client (appKey ctx session_key)) "revoked_at" ts1)
            "revoked_by" (pyIntStr user_id) := by
      simp [load_application, Client.hgetall, hget_nmem, alGet_alPut]
    rw [hload2, alGet_alPut, if_pos rfl]
  · intro f hf1 hf2
    have hload2 : load_application
        { client with
          hashes := alPut client.hashes (appKey ctx session_key)
            (alPut (alPut (load_application client (appKey ctx session_key)) "revoked_at" ts1)
              "revoked_by" (pyIntStr user_id)) }
        (appKey ctx session_key)
        = alPut (alPut (load_application client (appKey ctx session_key)) "revoked_at" ts1)
            "revoked_by" (pyIntStr user_id) := by
      simp [load_application, Client.hgetall, hget_nmem, alGet_alPut]
    rw [hload2, alGet_alPut, if_neg hf2, alGet_alPut, if_neg hf1]

theorem pyIntStr_ten : pyIntStr 10 = "10" := by decide

/-- Concrete client for the C3 witness: one application owned by user 10. -/
def c3client : Client :=
  { hashes := [("second_hand:abc", [("user_id", "10"), ("position", "Coat")])], sets := [] }

/-- Concrete context for the C3 witness. -/
def c3ctx : AdminCtx := { pfx := "second_hand", client := some c3client }

/-- Witness for C3 at a concrete owned, unrevoked record. -/
theorem C3_revoke_twice_witness :
    ∃ client2,
      mark_application_revoked c3ctx "abc" 10 "2025-10-12T00:00:00+00:00"
        = (true, { c3ctx with client := some client2 }) ∧
      mark_application_revoked { c3ctx with client := some client2 } "abc" 10
          "2025-10-12T00:00:01+00:00"
        = (false, { c3ctx with client := some client2 }) ∧
      alGet (load_application client2 (appKey c3ctx "abc")) "revoked_at"
        = some "2025-10-12T00:00:00+00:00" ∧
      alGet (load_application client2 (appKey c3ctx "abc")) "revoked_by"
        = some (pyIntStr 10) ∧
      ∀ f, f ≠ "revoked_at" → f ≠ "revoked_by" →
        alGet (load_application client2 (appKey c3ctx "abc")) f
          = alGet (load_application c3client (appKey c3ctx "abc")) f :=
  C3_revoke_twice c3ctx c3client "abc" 10 _ _ rfl
    (by rw [pyIntStr_ten]; decide) (by decide) (by decide) (by decide) rfl

/-- The field mapping stored for `key`, empty when absent. -/
def recordFields (c : Client) (key : String) : List (String × String) :=
  (alGet c.hashes key).getD []

/-- The review-pair invariant: in every stored record, `reviewed_at` and
`reviewed_by` are both present or both absent. -/
def reviewPairInv (ctx : AdminCtx) : Prop :=
  ∀ c, ctx.client = some c → ∀ key,
    ((alGet (recordFields c key) "reviewed_at").isSome ↔
      (alGet (recordFields c key) "reviewed_by").isSome)

/-- One call in a review sequence: a `mark_application_reviewed` or a
`clear_application_review` (only the store effect matters). -/
inductive ReviewOp where
  | mark (session_key : String) (reviewer_id : Int) (now_iso : String)
  | clear (session_key : String)

/-- Apply one review call to the context. -/
def applyReviewOp (ctx : AdminCtx) : ReviewOp → AdminCtx
  | .mark sk r ts => (mark_application_reviewed ctx sk r ts).2
  | .clear sk => (clear_application_review ctx sk).2

/-- Apply a sequence of review calls. -/
def applyReviewOps (ctx : AdminCtx) (ops : List ReviewOp) : AdminCtx :=
  ops.foldl applyReviewOp ctx

theorem mark_reviewed_preserves (ctx : AdminCtx) (session_key : String) (reviewer_id : Int)
    (now_iso : String) (h : reviewPairInv ctx) :
    reviewPairInv (mark_application_reviewed ctx session_key reviewer_id now_iso).2 := by
  cases hc : ctx.client with
  | none =>
    simp only [mark_application_reviewed, hc]
    exact h
  | some client =>
    simp only [mark_application_reviewed, hc]
    by_cases hrec : (load_application client (appKey ctx session_key)).isEmpty
    · rw [if_pos hrec]
      exact h
    · rw [if_neg hrec]
      simp only [Client.hset]
      cases hmem : client.hsetErrs.contains (appKey ctx session_key) with
      | true => exact h
      | false =>
        intro c hcc key
        have hcz : { client with
            hashes := alPut client.hashes (appKey ctx session_key)
              (alPutMany ((alGet client.hashes (appKey ctx session_key)).getD [])
                [("reviewed_at", now_iso), ("reviewed_by", pyIntStr reviewer_id)]) } = c := by
          injection hcc
        subst hcz
        simp only [recordFields, alPutMany_pair]
        rw [alGet_alPut]
        by_cases hk : key = appKey ctx session_key
        · rw [if_pos hk]
          rw [show ((some (alPut (alPut ((alGet client.hashes (appKey ctx session_key)).getD [])
              "reviewed_at" now_iso) "reviewed_by" (pyIntStr reviewer_id))).getD [])
            = alPut (alPut ((alGet client.hashes (appKey ctx session_key)).getD [])
              "reviewed_at" now_iso) "reviewed_by" (pyIntStr reviewer_id) from rfl]
          rw [alGet_alPut, alGet_alPut, if_pos rfl, if_neg (by decide), alGet_alPut, if_pos rfl]
          simp
        · rw [if_neg hk]
          exact h client hc key

theorem clear_review_preserves (ctx : AdminCtx) (session_key : String)
    (h : reviewPairInv ctx) :
    reviewPairInv (clear_application_review ctx session_key).2 := by
  cases hc : ctx.client with
  | none =>
    simp only [clear_application_review, hc]
    exact h
  | some client =>
    simp only [clear_application_review, hc]
    by_cases hrec : (load_application client (appKey ctx session_key)).isEmpty
    · rw [if_pos hrec]
      exact h
    · rw [if_neg hrec]
      simp only [Client.hdel]
      cases hmem : client.hdelErrs.contains (appKey ctx session_key) with
      | true => exact h
      | false =>
        intro c hcc key
        have hcz : { client with
            hashes := alPut client.hashes (appKey ctx session_key)
              (alDrop ((alGet client.hashes (appKey ctx session_key)).getD [])
                ["reviewed_at", "reviewed_by"]) } = c := by
          injection hcc
        subst hcz
        simp only [recordFields]
        rw [alGet_alPut]
        by_cases hk : key = appKey ctx session_key
        · rw [if_pos hk]
          rw [show ((some (alDrop ((alGet client.hashes (appKey ctx session_key)).getD [])
              ["reviewed_at", "reviewed_by"])).getD [])
            = alDrop ((alGet client.hashes (appKey ctx session_key)).getD [])
                ["reviewed_at", "reviewed_by"] from rfl]
          rw [alGet_alDrop, alGet_alDrop, if_pos (by decide), if_pos (by decide)]
        · rw [if_neg hk]
          exact h client hc key

theorem clear_review_true_neither (ctx : AdminCtx) (session_key : String)
    (h : (clear_application_review ctx session_key).1 = true) :
    ∀ c, ((clear_application_review ctx session_key).2).client = some c →
      alGet (recordFields c (appKey ctx session_key)) "reviewed_at" = none ∧
      alGet (recordFields c (appKey ctx session_key)) "reviewed_by" = none := by
  cases hc : ctx.client with
  | none => simp [clear_application_review, hc] at h
  | some client =>
    simp only [clear_application_review, hc] at h ⊢
    by_cases hrec : (load_application client (appKey ctx session_key)).isEmpty
    · rw [if_pos hrec] at h
      cases h
    · rw [if_neg hrec] at h ⊢
      simp only [Client.hdel] at h ⊢
      revert h
      cases hmem : client.hdelErrs.contains (appKey ctx session_key) with
      | true =>
        intro h
        simp at h
      | false =>
        intro _h c hcc
        have hcz : { client with
            hashes := alPut client.hashes (appKey ctx session_key)
              (alDrop ((alGet client.hashes (appKey ctx session_key)).getD [])
                ["reviewed_at", "reviewed_by"]) } = c := by
          injection hcc
        subst hcz
        simp only [recordFields]
        rw [alGet_alPut, if_pos rfl]
        rw [show ((some (alDrop ((alGet client.hashes (appKey ctx session_key)).getD [])
            ["reviewed_at", "reviewed_by"])).getD [])
          = alDrop ((alGet client.hashes (appKey ctx session_key)).getD [])
              ["reviewed_at", "reviewed_by"] from rfl]
        rw [alGet_alDrop, alGet_alDrop, if_pos (by decide), if_pos (by decide)]
        exact ⟨rfl, rfl⟩

/-- C4: starting from any store where `reviewed_at`/`reviewed_by` are
both present or both absent in every record, any sequence of
`mark_application_reviewed` / `clear_application_review` calls preserves
that pair invariant (no reachable state has exactly one of the two); and
after such a sequence, any `clear_application_review` that reports
success leaves a record carrying neither field — in particular a mark
followed by a successful clear. -/
theorem C4_review_pair_togglable (ctx : AdminCtx) (ops : List ReviewOp)
    (h : reviewPairInv ctx) :
    reviewPairInv (applyReviewOps ctx ops) ∧
    ∀ session_key,
      (clear_application_review (applyReviewOps ctx ops) session_key).1 = true →
      ∀ c, ((clear_application_review (applyReviewOps ctx ops) session_key).2).client = some c →
        alGet (recordFields c (appKey (applyReviewOps ctx ops) session_key)) "reviewed_at"
            = none ∧
        alGet (recordFields c (appKey (applyReviewOps ctx ops) session_key)) "reviewed_by"
            = none := by
  have hpres : reviewPairInv (applyReviewOps ctx ops) := by
    induction ops generalizing ctx with
    | nil => exact h
    | cons op t ih =>
      show reviewPairInv (applyReviewOps (applyReviewOp ctx op) t)
      cases op with
      | mark sk r ts => exact ih _ (mark_reviewed_preserves ctx sk r ts h)
      | clear sk => exact ih _ (clear_review_preserves ctx sk h)
  exact ⟨hpres, fun session_key h1 => clear_review_true_neither _ session_key h1⟩

/-- Concrete client for the C4 witness: one record without review marks. -/
def c4client : Client :=
  { hashes := [("second_hand:abc", [("user_id", "10")])], sets := [] }

/-- Concrete context for the C4 witness. -/
def c4ctx : AdminCtx := { pfx := "second_hand", client := some c4client }

/-- Witness for C4 at a concrete store and a mark-then-clear sequence. -/
theorem C4_review_pair_togglable_witness :
    reviewPairInv
        (applyReviewOps c4ctx [ReviewOp.mark "abc" 7 "2025-10-12T00:00:00+00:00"]) ∧
    ∀ session_key,
      (clear_application_review
          (applyReviewOps c4ctx [ReviewOp.mark "abc" 7 "2025-10-12T00:00:00+00:00"])
          session_key).1 = true →
      ∀ c, ((clear_application_review
            (applyReviewOps c4ctx [ReviewOp.mark "abc" 7 "2025-10-12T00:00:00+00:00"])
            session_key).2).client = some c →
        alGet (recordFields c
            (appKey (applyReviewOps c4ctx [ReviewOp.mark "abc" 7 "2025-10-12T00:00:00+00:00"])
              session_key)) "reviewed_at" = none ∧
        alGet (recordFields c
            (appKey (applyReviewOps c4ctx [ReviewOp.mark "abc" 7 "2025-10-12T00:00:00+00:00"])
              session_key)) "reviewed_by" = none :=
  C4_review_pair_togglable c4ctx [ReviewOp.mark "abc" 7 "2025-10-12T00:00:00+00:00"]
    (by
      intro c hc key
      have hcz : c4client = c := by injection hc
      subst hcz
      simp only [recordFields]
      rw [show c4client.hashes = [("second_hand:abc", [("user_id", "10")])] from rfl]
      rw [alGet_cons]
      by_cases hk : "second_hand:abc" = key
      · rw [if_pos hk]
        decide
      · rw [if_neg hk, alGet_nil]
        decide)

/-- The mark-then-clear scenario on the concrete store: the clear
succeeds, so the witness covers the non-vacuous case of C4. -/
theorem clear_after_mark_succeeds :
    (clear_application_review
        (applyReviewOps c4ctx [ReviewOp.mark "abc" 7 "2025-10-12T00:00:00+00:00"]) "abc").1
      = true := by decide

/-! ## Audience resolution (`recipients_for_audience`)

`datetime` values are modelled by seconds: `naive` is the wall-clock
instant read as UTC, `tz` the `utcoffset` in seconds (`none` for naive
datetimes).  `datetime.fromisoformat` is a parameter of the model (it is
library code); `datetime.now(UTC)` enters as the argument `now`, and
`timedelta(days=30)` is `30 * 86400` seconds.  Comparison of aware
datetimes compares instants (`naive - offset`).
-/

/-- A parsed `datetime`: wall-clock seconds plus optional UTC offset. -/
structure PyDatetime where
  naive : Int
  tz : Option Int
deriving DecidableEq

/-- The instant of an aware datetime, in UTC seconds. -/
def PyDatetime.instant (t : PyDatetime) : Int := t.naive - t.tz.getD 0

/-- `if timestamp.tzinfo is None: timestamp.replace(tzinfo=UTC)`. -/
def normTz (t : PyDatetime) : PyDatetime :=
  if t.tz.isNone then { t with tz := some 0 } else t

/-- `list_active_users(context)`: the users set parsed as integers.  (In
the source a non-integer member would raise `ValueError` out of the set
comprehension; members are only ever written as `str(int)`, so the model
skips unparsable members instead.) -/
def list_active_users (ctx : AdminCtx) : Finset Int :=
  match ctx.client with
  | none => ∅
  | some client =>
    match client.smembers (ctx.pfx ++ ":" ++ "users") with
    | .error _ => ∅
    | .ok raw => (raw.filterMap pyInt).toFinset

/-- One iteration of the `recent` scan: parse `created_at`, normalize a
naive timestamp to UTC, keep the record when on or after the cutoff, then
parse the owner id (default `"0"`), skipping on failure. -/
def recentStep (cutoff : Int) (fromiso : String → Option PyDatetime)
    (acc : Finset Int) (submission : List (String × String)) : Finset Int :=
  match fromiso ((alGet submission "created_at").getD "") with
  | none => acc
  | some t =>
    if cutoff ≤ (normTz t).instant then
      match pyInt ((alGet submission "user_id").getD "0") with
      | none => acc
      | some uid => insert uid acc
    else acc

/-- `recipients_for_audience(context, audience)`. -/
def recipients_for_audience (ctx : AdminCtx) (fromiso : String → Option PyDatetime)
    (now : Int) (audience : String) : Finset Int :=
  if audience = "all" then list_active_users ctx
  else if audience = "recent" then
    let cutoff := now - 30 * 86400
    match fetch_all_submissions ctx with
    | none => ∅
    | some submissions =>
      if submissions.isEmpty then ∅
      else submissions.foldl (recentStep cutoff fromiso) ∅
  else ∅

theorem mem_recentStep_foldl (cutoff : Int) (fromiso : String → Option PyDatetime)
    (l : List (List (String × String))) (acc : Finset Int) (i : Int) :
    i ∈ l.foldl (recentStep cutoff fromiso) acc ↔
      i ∈ acc ∨ ∃ r ∈ l, ∃ t, fromiso ((alGet r "created_at").getD "") = some t ∧
        cutoff ≤ (normTz t).instant ∧ pyInt ((alGet r "user_id").getD "0") = some i := by
  induction l generalizing acc with
  | nil => simp
  | cons r rest ih =>
    rw [List.foldl_cons, ih]
    have hstep : i ∈ recentStep cutoff fromiso acc r ↔
        i ∈ acc ∨ ∃ t, fromiso ((alGet r "created_at").getD "") = some t ∧
          cutoff ≤ (normTz t).instant ∧ pyInt ((alGet r "user_id").getD "0") = some i := by
      unfold recentStep
      cases hfi : fromiso ((alGet r "created_at").getD "") with
      | none => simp
      | some t =>
        show (i ∈ if cutoff ≤ (normTz t).instant then
            match pyInt ((alGet r "user_id").getD "0") with
            | none => acc
            | some uid => insert uid acc
          else acc) ↔ _
        by_cases hcut : cutoff ≤ (normTz t).instant
        · rw [if_pos hcut]
          cases hpi : pyInt ((alGet r "user_id").getD "0") with
          | none =>
            constructor
            · intro hin
              exact Or.inl hin
            · rintro (h | ⟨t2, ht2, hc2, hu⟩)
              · exact h
              · cases hu
          | some uid =>
            constructor
            · intro hin
              rcases Finset.mem_insert.mp hin with rfl | h
              · exact Or.inr ⟨t, rfl, hcut, rfl⟩
              · exact Or.inl h
            · rintro (h | ⟨t2, ht2, hc2, hu⟩)
              · exact Finset.mem_insert_of_mem h
              · have huid : uid = i := by injection hu
                subst huid
                exact Finset.mem_insert_self uid acc
        · rw [if_neg hcut]
          constructor
          · intro hin
            exact Or.inl hin
          · rintro (h | ⟨t2, ht2, hc2, hu⟩)
            · exact h
            · have : t2 = t := by injection ht2 with hh; exact hh.symm
              subst this
              exact absurd hc2 hcut
    rw [hstep]
    constructor
    · rintro (h | h) 
      · tauto
      · obtain ⟨rr, hrr, hk⟩ := h
        exact Or.inr ⟨rr, List.mem_cons_of_mem _ hrr, hk⟩
    · rintro (h | ⟨rr, hrr, hk⟩)
      · tauto
      · rcases List.mem_cons.mp hrr with rfl | hmem
        · exact Or.inl (Or.inr hk)
        · exact Or.inr ⟨rr, hmem, hk⟩

/-- C9 (amended): `recipients_for_audience("recent")` returns exactly the
ids parsed from the `user_id` field (default `"0"` when the field is
absent) of records whose `created_at` parses and whose normalized
timestamp is ON OR AFTER the cutoff `now - 30 days` — with no upper
bound, so future timestamps are included; records with unparsable
timestamps or owner ids are skipped without failing the resolution. -/
theorem C9_recent_recipients (ctx : AdminCtx) (fromiso : String → Option PyDatetime)
    (now : Int) (subs : List (List (String × String)))
    (hsubs : fetch_all_submissions ctx = some subs) (i : Int) :
    i ∈ recipients_for_audience ctx fromiso now "recent" ↔
      ∃ r ∈ subs, ∃ t, fromiso ((alGet r "created_at").getD "") = some t ∧
        now - 30 * 86400 ≤ (normTz t).instant ∧
        pyInt ((alGet r "user_id").getD "0") = some i := by
  unfold recipients_for_audience
  rw [if_neg (show ¬("recent" = "all") by decide), if_pos rfl, hsubs]
  show (i ∈ if subs.isEmpty then ∅
      else subs.foldl (recentStep (now - 30 * 86400) fromiso) ∅) ↔ _
  by_cases hie : subs.isEmpty
  · rw [if_pos hie]
    obtain rfl : subs = [] := by
      cases subs with
      | nil => rfl
      | cons a t => cases hie
    simp
  · rw [if_neg hie, mem_recentStep_foldl]
    simp

/-- Concrete client for the C9 counterexample: one record timestamped a
month in the future. -/
def c9client : Client :=
  { hashes := [("second_hand:f1",
      [("user_id", "7"), ("created_at", "2025-11-12T00:00:00+00:00")])],
    sets := [("second_hand:applications", ["second_hand:f1"])] }

/-- Concrete context for the C9 counterexample. -/
def c9ctx : AdminCtx := { pfx := "second_hand", client := some c9client }

/-- `datetime.fromisoformat` on the one string the counterexample store
contains: 2025-11-12T00:00:00+00:00 is 1762905600 in epoch seconds. -/
def c9fromiso (s : String) : Option PyDatetime :=
  if s = "2025-11-12T00:00:00+00:00" then some { naive := 1762905600, tz := some 0 } else none

/-- C9 counterexample: with `now` = 2025-10-12T00:00:00Z (1760227200),
a record whose `created_at` is one month in the FUTURE — strictly after
`now`, hence outside any trailing 30-day window ending now — is still
included: the resolution returns `{7}` where the claim requires the
record to be excluded.  The code only checks `timestamp >= cutoff`. -/
theorem C9_counterexample :
    recipients_for_audience c9ctx c9fromiso 1760227200 "recent" = {7} ∧
    c9fromiso "2025-11-12T00:00:00+00:00" = some { naive := 1762905600, tz := some 0 } ∧
    (1760227200 : Int) < (normTz { naive := 1762905600, tz := some 0 }).instant :=
  ⟨by decide, rfl, by decide⟩

/-- Concrete client for the C9 witness: the spec scenario, one record 2
days old owned by user 1 and one 45 days old owned by user 2. -/
def c9wclient : Client :=
  { hashes :=
      [("second_hand:a1", [("user_id", "1"), ("created_at", "2025-10-10T00:00:00+00:00")]),
        ("second_hand:a2", [("user_id", "2"), ("created_at", "2025-08-28T00:00:00+00:00")])],
    sets := [("second_hand:applications", ["second_hand:a1", "second_hand:a2"])] }

/-- Concrete context for the C9 witness. -/
def c9wctx : AdminCtx := { pfx := "second_hand", client := some c9wclient }

/-- `datetime.fromisoformat` on the two timestamps of the witness store
(2 days and 45 days before 2025-10-12T00:00:00Z). -/
def c9wfromiso (s : String) : Option PyDatetime :=
  if s = "2025-10-10T00:00:00+00:00" then some { naive := 1760054400, tz := some 0 }
  else if s = "2025-08-28T00:00:00+00:00" then some { naive := 1756339200, tz := some 0 }
  else none

/-- Witness for C9 (amended) at the spec scenario store. -/
theorem C9_recent_recipients_witness :
    fetch_all_submissions c9wctx = some
        [[("user_id", "1"), ("created_at", "2025-10-10T00:00:00+00:00")],
          [("user_id", "2"), ("created_at", "2025-08-28T00:00:00+00:00")]] ∧
    ∀ i : Int, i ∈ recipients_for_audience c9wctx c9wfromiso 1760227200 "recent" ↔
      ∃ r ∈ [[("user_id", "1"), ("created_at", "2025-10-10T00:00:00+00:00")],
          [("user_id", "2"), ("created_at", "2025-08-28T00:00:00+00:00")]],
        ∃ t, c9wfromiso ((alGet r "created_at").getD "") = some t ∧
          (1760227200 : Int) - 30 * 86400 ≤ (normTz t).instant ∧
          pyInt ((alGet r "user_id").getD "0") = some i :=
  ⟨by decide, fun i => C9_recent_recipients c9wctx c9wfromiso 1760227200 _ (by decide) i⟩

/-- The spec scenario instance: with the 2-day-old record owned by user 1
and the 45-day-old record owned by user 2, `recent` resolves to `{1}`. -/
theorem recipients_recent_scenario :
    recipients_for_audience c9wctx c9wfromiso 1760227200 "recent" = {1} := by decide

/-! ## Media storage (`bot/media_storage.py`)

Directories are resolved absolute paths, modelled by their component
lists (the roots are resolved in the constructors).  Filesystem reads
(`exists()`) are a pure predicate parameter; writes and network transfers
are recorded in an `IOOp` trace so "raises before any filesystem write or
network I/O" is the trace being empty.  `resolve(strict=False)` is the
symlink-free lexical resolution `resolveParts`. -/

/-- `MediaSession`: session key plus the local directory (absent for the
MinIO backend). -/
structure MediaSession where
  key : String
  directory : Option (List String) := none
deriving DecidableEq

/-- The exceptions the media layer raises. -/
inductive Err where
  | fileNotFound
  | runtimeError
  | valueError
deriving DecidableEq

/-- A write or network operation performed by a media call. -/
inductive IOOp where
  | mkdir (dir : List String)
  | download (target : List String)
deriving DecidableEq

/-- `_resolve_within(base, relative)`: reject absolute inputs, resolve
against `base`, reject results that leave `base`
(`FileNotFoundError` in the source). -/
def resolve_within (base : List String) (relative : String) : Except Err (List String) :=
  let rp := pyPath relative
  if rp.absolute then .error .fileNotFound
  else
    let target := resolveParts (base ++ rp.parts)
    if base.isPrefixOf target then .ok target else .error .fileNotFound

/-- `LocalMediaStorage.get_session`: `_resolve_within` failures become
`RuntimeError("Invalid session key")`; on success the directory is
created. -/
def LocalMediaStorage.get_session (root : List String) (session_key : String) :
    Except Err MediaSession × List IOOp :=
  match resolve_within root session_key with
  | .error _ => (.error .runtimeError, [])
  | .ok directory => (.ok { key := session_key, directory := some directory }, [.mkdir directory])

/-- `LocalMediaStorage.cache_photo`: absolute handles must exist and stay
under the root; relative handles go through `_resolve_within` and must
exist.  All failures are `FileNotFoundError`, raised before any write. -/
def LocalMediaStorage.cache_photo (root : List String) (fs_exists : List String → Bool)
    (handle : String) : Except Err (List String) × List IOOp :=
  let candidate := pyPath handle
  if candidate.absolute then
    let resolved := resolveParts candidate.parts
    if !(fs_exists resolved) then (.error .fileNotFound, [])
    else if !(root.isPrefixOf resolved) then (.error .fileNotFound, [])
    else (.ok resolved, [])
  else
    match resolve_within root handle with
    | .error _ => (.error .fileNotFound, [])
    | .ok path =>
      if !(fs_exists path) then (.error .fileNotFound, []) else (.ok path, [])

/-- `LocalMediaStorage._ensure_session_directory`: use the session's
directory when set (re-resolving and guarding against escape with
`RuntimeError`), otherwise re-derive it from the key. -/
def LocalMediaStorage.ensure_session_directory (root : List String)
    (session : MediaSession) : Except Err (List String) :=
  match session.directory with
  | some d =>
    let resolved := resolveParts d
    if !(root.isPrefixOf resolved) then .error .runtimeError else .ok resolved
  | none => resolve_within root session.key

/-- `LocalMediaStorage.allocate_path`: sanitize the filename to
`Path(filename).name`, raise `ValueError` when that is empty, and join it
to the (created) session directory. -/
def LocalMediaStorage.allocate_path (root : List String) (session : MediaSession)
    (filename : String) : Except Err (List String) × List IOOp :=
  match LocalMediaStorage.ensure_session_directory root session with
  | .error e => (.error e, [])
  | .ok directory =>
    let sanitized := pyName filename
    if sanitized = "" then (.error .valueError, [.mkdir directory])
    else (.ok (directory ++ [sanitized]), [.mkdir directory])

/-- `MinioMediaStorage.get_session`: a bare wrapper, no validation. -/
def MinioMediaStorage.get_session (session_key : String) : MediaSession :=
  { key := session_key, directory := none }

/-- `MinioMediaStorage.allocate_path`:
`(cache_dir or Path(".")) / session.key / filename` with the raw
filename, after creating the session cache directory. -/
def MinioMediaStorage.allocate_path (cache_dir : Option (List String))
    (session : MediaSession) (filename : String) : PyPath × List IOOp :=
  let base : PyPath :=
    match cache_dir with
    | some d => { absolute := true, parts := d }
    | none => { absolute := false, parts := [] }
  let directory := pyJoin base session.key
  (pyJoin directory filename, [.mkdir directory.parts])

/-- `MinioMediaStorage.cache_photo`: reject absolute handles and handles
that resolve outside the cache root before any I/O; otherwise create the
parent and download when the target is missing (a failed download is
`FileNotFoundError`). -/
def MinioMediaStorage.cache_photo (cache_dir : Option (List String))
    (fs_exists : List String → Bool) (fetch_ok : String → Bool) (handle : String) :
    Except Err (List String) × List IOOp :=
  match cache_dir with
  | none => (.error .runtimeError, [])
  | some base =>
    if (pyPath handle).absolute then (.error .fileNotFound, [])
    else
      let target := resolveParts (base ++ (pyPath handle).parts)
      if !(base.isPrefixOf target) then (.error .fileNotFound, [])
      else if fs_exists target then (.ok target, [.mkdir target.dropLast])
      else if fetch_ok handle then (.ok target, [.mkdir target.dropLast, .download target])
      else (.error .fileNotFound, [.mkdir target.dropLast, .download target])

/-- A key or handle string that would resolve outside `root`: absolute
and not under the root, or relative and escaping after resolution. -/
def escapesRoot (root : List String) (key : String) : Bool :=
  let p := pyPath key
  if p.absolute then !(root.isPrefixOf (resolveParts p.parts))
  else !(root.isPrefixOf (resolveParts (root ++ p.parts)))

/-- C1 (amended): for every session-key/handle string that would resolve
outside the storage root, the LOCAL backend's `get_session` raises and
both backends' `cache_photo` raise a not-found error, in each case before
any filesystem write or network I/O (empty trace, for every filesystem
state); the MinIO backend's `get_session`, however, performs no
validation and returns a session handle without raising, for every key. -/
theorem C1_traversal_rejection (root : List String) (key : String)
    (hesc : escapesRoot root key = true) :
    LocalMediaStorage.get_session root key = (Except.error Err.runtimeError, []) ∧
    (∀ fs_exists, LocalMediaStorage.cache_photo root fs_exists key
      = (Except.error Err.fileNotFound, [])) ∧
    (∀ fs_exists fetch_ok, MinioMediaStorage.cache_photo (some root) fs_exists fetch_ok key
      = (Except.error Err.fileNotFound, [])) ∧
    MinioMediaStorage.get_session key = { key := key, directory := none } := by
  unfold escapesRoot at hesc
  by_cases habs : (pyPath key).absolute
  · rw [if_pos habs] at hesc
    have hpre : root.isPrefixOf (resolveParts (pyPath key).parts) = false := by
      cases h : root.isPrefixOf (resolveParts (pyPath key).parts) with
      | false => rfl
      | true => rw [h] at hesc; cases hesc
    refine ⟨?_, ?_, ?_, rfl⟩
    · unfold LocalMediaStorage.get_session resolve_within
      rw [if_pos habs]
    · intro fs_exists
      unfold LocalMediaStorage.cache_photo
      rw [if_pos habs]
      cases hfe : fs_exists (resolveParts (pyPath key).parts) with
      | false => simp [hfe]
      | true => simp [hfe, hpre]
    · intro fs_exists fetch_ok
      unfold MinioMediaStorage.cache_photo
      simp [habs]
  · rw [if_neg habs] at hesc
    have hpre : root.isPrefixOf (resolveParts (root ++ (pyPath key).parts)) = false := by
      cases h : root.isPrefixOf (resolveParts (root ++ (pyPath key).parts)) with
      | false => rfl
      | true => rw [h] at hesc; cases hesc
    have habs' : (pyPath key).absolute = false := by
      cases h : (pyPath key).absolute with
      | false => rfl
      | true => exact absurd h habs
    have hrw : resolve_within root key = Except.error Err.fileNotFound := by
      unfold resolve_within
      rw [if_neg habs, if_neg (by simp [hpre])]
    refine ⟨?_, ?_, ?_, rfl⟩
    · unfold LocalMediaStorage.get_session
      rw [hrw]
    · intro fs_exists
      unfold LocalMediaStorage.cache_photo
      rw [if_neg habs, hrw]
    · intro fs_exists fetch_ok
      unfold MinioMediaStorage.cache_photo
      simp [habs', hpre]

/-- Witness for C1 (amended) at the spec's example key `"../escape"`. -/
theorem C1_traversal_rejection_witness :
    escapesRoot ["srv", "media"] "../escape" = true ∧
    LocalMediaStorage.get_session ["srv", "media"] "../escape"
      = (Except.error Err.runtimeError, []) ∧
    LocalMediaStorage.cache_photo ["srv", "media"] (fun _ => true) "../escape"
      = (Except.error Err.fileNotFound, []) ∧
    MinioMediaStorage.cache_photo (some ["srv", "media"]) (fun _ => true) (fun _ => true)
        "../escape"
      = (Except.error Err.fileNotFound, []) ∧
    MinioMediaStorage.get_session "../escape" = { key := "../escape", directory := none } :=
  ⟨by decide,
    (C1_traversal_rejection ["srv", "media"] "../escape" (by decide)).1,
    (C1_traversal_rejection ["srv", "media"] "../escape" (by decide)).2.1 _,
    (C1_traversal_rejection ["srv", "media"] "../escape" (by decide)).2.2.1 _ _,
    (C1_traversal_rejection ["srv", "media"] "../escape" (by decide)).2.2.2⟩

/-- C1 counterexample: the claim requires `get_session("../escape")` to
raise on BOTH backends, but `MinioMediaStorage.get_session` performs no
validation: on the escaping key `"../escape"` it returns a session handle
normally (its source is a single constructor call with no raise path). -/
theorem C1_counterexample :
    escapesRoot ["srv", "media"] "../escape" = true ∧
    MinioMediaStorage.get_session "../escape" = { key := "../escape", directory := none } :=
  ⟨by decide, rfl⟩

theorem isPrefixOf_append_self (l t : List String) : l.isPrefixOf (l ++ t) = true := by
  induction l with
  | nil => simp [List.isPrefixOf]
  | cons a r ih => simp [List.isPrefixOf, ih]

/-- C6 (amended): on the LOCAL backend, for every session whose directory
is a resolved directory under the root and every filename whose base name
is neither empty nor `".."`, `allocate_path` returns the session
directory joined with exactly `Path(filename).name` (directory components
stripped), and the result stays inside the session directory.  (On the
MinIO backend the filename is joined unsanitized — see the
counterexample — and a filename with empty base name raises `ValueError`
rather than returning.) -/
theorem C6_allocate_path_local (root d : List String) (session : MediaSession)
    (filename : String)
    (hdir : session.directory = some d)
    (hres : resolveParts d = d)
    (hpre : root.isPrefixOf d = true)
    (hname1 : pyName filename ≠ "") (hname2 : pyName filename ≠ "..") :
    LocalMediaStorage.allocate_path root session filename
      = (Except.ok (d ++ [pyName filename]), [IOOp.mkdir d]) ∧
    d.isPrefixOf (resolveParts (d ++ [pyName filename])) = true := by
  have hresolved : resolveParts (d ++ [pyName filename]) = d ++ [pyName filename] := by
    unfold resolveParts
    rw [List.foldl_append]
    rw [show List.foldl (fun acc q => if q = ".." then acc.dropLast else acc ++ [q]) [] d
      = resolveParts d from rfl, hres]
    simp [hname2]
  constructor
  · unfold LocalMediaStorage.allocate_path LocalMediaStorage.ensure_session_directory
    rw [hdir]
    show (match (if !(root.isPrefixOf (resolveParts d)) then Except.error Err.runtimeError
        else Except.ok (resolveParts d)) with
      | .error e => ((Except.error e : Except Err (List String)), ([] : List IOOp))
      | .ok directory =>
        if pyName filename = "" then (Except.error Err.valueError, [IOOp.mkdir directory])
        else (Except.ok (directory ++ [pyName filename]), [IOOp.mkdir directory])) = _
    rw [hres, if_neg (by simp [hpre])]
    simp [hname1]
  · rw [hresolved]
    exact isPrefixOf_append_self d [pyName filename]

/-- Witness for C6 (amended) at a concrete session and filename. -/
theorem C6_allocate_path_local_witness :
    LocalMediaStorage.allocate_path ["srv", "media"]
        { key := "s1", directory := some ["srv", "media", "s1"] } "../evil.jpg"
      = (Except.ok (["srv", "media", "s1"] ++ [pyName "../evil.jpg"]),
        [IOOp.mkdir ["srv", "media", "s1"]]) ∧
    (["srv", "media", "s1"].isPrefixOf
        (resolveParts (["srv", "media", "s1"] ++ [pyName "../evil.jpg"]))) = true :=
  C6_allocate_path_local ["srv", "media"] ["srv", "media", "s1"]
    { key := "s1", directory := some ["srv", "media", "s1"] } "../evil.jpg"
    rfl (by decide) (by decide) (by decide) (by decide)

/-- C6 counterexample: the MinIO backend joins the RAW filename — for
`"../evil.jpg"` the `".."` directory component survives (nothing is
stripped to the base name `"evil.jpg"`), and the allocated path resolves
outside the session's staging directory `cache/s`. -/
theorem C6_counterexample :
    (MinioMediaStorage.allocate_path (some ["cache"]) { key := "s", directory := none }
        "../evil.jpg").1
      = { absolute := true, parts := ["cache", "s", "..", "evil.jpg"] } ∧
    pyName "../evil.jpg" = "evil.jpg" ∧
    (["cache", "s"].isPrefixOf (resolveParts ["cache", "s", "..", "evil.jpg"])) = false :=
  ⟨by decide, by decide, by decide⟩
